import Mathlib

/-!
# Conventional-memory printer: `itoa` and `main` (src/main.c)

A shallow embedding of the decimal formatter `itoa` and of the driver `main`.

* C `int` values are mathematical integers (`Int`); on the target (GCC for x86, where the
  `fastcall` attribute of `src/stdio.h` exists) `int` is 32 bits wide, so `INT_MAX` is
  `2147483647`.  No operation of `itoa` can overflow: it only divides by ten, takes the remainder
  and adds a remainder to `'0'`.
* `static char buf[6]` is a list of bytes; the pointer `p` is its offset from `buf`, an `Int`
  because nothing in the source keeps it from stepping in front of the buffer.
* A store outside the buffer is undefined behaviour in C; the embedding stops there with
  `Outcome.outOfBounds`.
* The control flow of the loop reads only `n`; `itoaLoopFlat` runs the same loop without
  stopping at such a store, and agrees with `itoaLoop` on every run that stays inside the buffer.
* The `while` loop runs on fuel; `itoa` supplies `n.toNat` units, which is shown to suffice.
-/

namespace SysSoft

/-- Largest value of a C `int` on the target. -/
def INT_MAX : Int := 2147483647

/-- How a run of embedded C code ends. -/
inductive Outcome (α : Type) where
  /-- Normal completion with a value. -/
  | done (a : α)
  /-- A store through a pointer outside `buf[0..5]`, at the given offset. -/
  | outOfBounds (idx : Int)
  /-- The loop was cut off by the fuel bound (never a behaviour of the C code). -/
  | outOfFuel
deriving DecidableEq, Repr

/-- Local state of `itoa`: the static buffer, the offset of `p` from `buf`, the running value of
`n`, and the trace of stores made so far (offset and byte, oldest first). -/
structure ItoaState where
  buf : List Nat
  p : Int
  n : Int
  writes : List (Int × Nat)
deriving DecidableEq, Repr

/-- The store `buf[i] = c`; `none` when `i` is not an index of the buffer. -/
def store (buf : List Nat) (i : Int) (c : Nat) : Option (List Nat) :=
  if 0 ≤ i ∧ i < (buf.length : Int) then some (buf.set i.toNat c) else none

/-- The byte `'0' + (n % 10)` converted to `char` (`'0'` is 48, `%` truncates as in C). -/
def digitChar (n : Int) : Nat :=
  ((48 + Int.tmod n 10) % 256).toNat

/-- Loop of `itoa`, lines 17-20:
`while (n > 0) { *(--p) = '0' + (n % 10); n /= 10; }`. -/
def itoaLoop : Nat → ItoaState → Outcome ItoaState
  | 0, s => if s.n > 0 then Outcome.outOfFuel else Outcome.done s
  | fuel + 1, s =>
    if s.n > 0 then
      match store s.buf (s.p - 1) (digitChar s.n) with
      | none => Outcome.outOfBounds (s.p - 1)
      | some b =>
        itoaLoop fuel
          { buf := b, p := s.p - 1, n := Int.tdiv s.n 10,
            writes := s.writes ++ [(s.p - 1, digitChar s.n)] }
    else Outcome.done s

/-- The function `itoa`, lines 13-22, run on the buffer contents `buf0` left by earlier calls.
The final state carries the buffer, the returned pointer `p` and the stores made. -/
def itoa (buf0 : List Nat) (n : Int) : Outcome ItoaState :=
  match store buf0 5 0 with
  | none => Outcome.outOfBounds 5
  | some b => itoaLoop n.toNat { buf := b, p := 5, n := n, writes := [(5, 0)] }

/-- Bytes of a list up to, and without, the first zero byte; `none` if there is no zero byte. -/
def scanCStr : List Nat → Option (List Nat)
  | [] => none
  | c :: cs => if c = 0 then some [] else (scanCStr cs).map (fun t => c :: t)

/-- The NUL-terminated string that starts at offset `p` of the buffer. -/
def cstr (buf : List Nat) (p : Int) : Option (List Nat) :=
  if 0 ≤ p then scanCStr (buf.drop p.toNat) else none

/-- Text of a byte sequence. -/
def bytesToString (bs : List Nat) : String :=
  String.mk (bs.map Char.ofNat)

/-- The string a caller reads through the pointer returned by `itoa`. -/
def itoaString (buf0 : List Nat) (n : Int) : Option String :=
  match itoa buf0 n with
  | Outcome.done s => (cstr s.buf s.p).map bytesToString
  | _ => none

/-- The stores of a run after the first one (the terminator): the digit stores. -/
def digitWrites (s : ItoaState) : List (Int × Nat) :=
  s.writes.tail

/-- State in which `itoa` reaches its loop on a six-slot buffer: lines 15-16 have set `p` to
`buf + 5` and stored the terminator there. -/
def loopEntry (buf0 : List Nat) (n : Int) : ItoaState :=
  { buf := buf0.set 5 0, p := 5, n := n, writes := [(5, 0)] }

/-- The store `buf[i] = c` as the machine performs it: inside the buffer it changes that slot;
outside it lands in the memory next to the buffer and leaves the slots of `buf` as they are. -/
def storeFlat (buf : List Nat) (i : Int) (c : Nat) : List Nat :=
  if 0 ≤ i ∧ i < (buf.length : Int) then buf.set i.toNat c else buf

/-- Loop of `itoa`, lines 17-20, as the machine runs it.  The guard `n > 0` and the update
`n /= 10` read only `n`, so a store in front of the buffer does not stop the loop: it is
recorded in the trace and the loop goes on.  `none` means the fuel ran out. -/
def itoaLoopFlat : Nat → ItoaState → Option ItoaState
  | 0, s => if s.n > 0 then none else some s
  | fuel + 1, s =>
    if s.n > 0 then
      itoaLoopFlat fuel
        { buf := storeFlat s.buf (s.p - 1) (digitChar s.n), p := s.p - 1,
          n := Int.tdiv s.n 10, writes := s.writes ++ [(s.p - 1, digitChar s.n)] }
    else some s

/-- Stores the loop makes for the digit list `ds` (least-significant first) when it starts with
`p` at offset `k`: one store per digit, each one slot in front of the previous. -/
def digitStores (k : Int) : List Nat → List (Int × Nat)
  | [] => []
  | d :: ds => (k - 1, d + 48) :: digitStores (k - 1) ds

/-- The characters of the decimal numeral of `m`, most-significant digit first (empty for 0). -/
def digitBytes (m : Nat) : List Nat :=
  ((Nat.digits 10 m).map (fun d => d + 48)).reverse

/-- A strict decimal parser, the reading side of the round-trip law: a numeral is one or more
characters `'0'`..`'9'`; anything else, the empty string included, is rejected. -/
def parseDecimal (bs : List Nat) : Option Nat :=
  if bs ≠ [] ∧ ∀ c ∈ bs, 48 ≤ c ∧ c ≤ 57 then
    some (bs.foldl (fun acc c => 10 * acc + (c - 48)) 0)
  else none

/-- Format with `itoa`, then parse what the returned pointer reads. -/
def roundTrip (buf0 : List Nat) (n : Int) : Option Nat :=
  match itoa buf0 n with
  | Outcome.done s => (cstr s.buf s.p).bind parseDecimal
  | _ => none

/-- The string literal of line 27. -/
def label : List Nat :=
  "Conventional Memory: ".toList.map Char.toNat

/-- Modelled from the spec: the output sink `printf`, declared in `src/stdio.h` and defined
outside `src/`.  It "accepts a null/length-terminated sequence of single-byte characters and
renders them in order": the characters of `text` are appended to what was emitted before. -/
def printf (out : List Nat) (text : List Nat) : List Nat :=
  out ++ text

/-- The function `main`, lines 24-30.  `mem_kb` is the value returned by the memory probe
`call_mem` (declared in `src/stdio.h`, defined outside `src/`).  The result is the bytes handed
to the output sink, in call order, and the exit status. -/
def main (buf0 : List Nat) (mem_kb : Int) : Outcome (List Nat × Int) :=
  let out := printf [] label
  match itoa buf0 mem_kb with
  | Outcome.done s =>
    match cstr s.buf s.p with
    | some text => Outcome.done (printf out text, 0)
    | none => Outcome.outOfBounds s.p
  | Outcome.outOfBounds i => Outcome.outOfBounds i
  | Outcome.outOfFuel => Outcome.outOfFuel

/-- Text emitted by `main` and its exit status, when it completes. -/
def mainOutput (buf0 : List Nat) (mem_kb : Int) : Option (String × Int) :=
  match main buf0 mem_kb with
  | Outcome.done r => some (bytesToString r.1, r.2)
  | _ => none

/-! ## The loop -/

theorem digitChar_natCast (m : Nat) : digitChar (m : Int) = m % 10 + 48 := by
  unfold digitChar
  rw [Int.tmod_eq_emod (by omega) (by omega)]
  omega

theorem store_of_lt (buf : List Nat) (k c : Nat) (h : k < buf.length) :
    store buf (k : Int) c = some (buf.set k c) := by
  unfold store
  rw [if_pos ⟨by omega, by omega⟩]
  simp

theorem store_neg (buf : List Nat) (i : Int) (c : Nat) (h : i < 0) : store buf i c = none := by
  unfold store
  rw [if_neg (by omega)]

theorem itoaLoop_nonpos (fuel : Nat) (s : ItoaState) (h : s.n ≤ 0) :
    itoaLoop fuel s = Outcome.done s := by
  cases fuel <;> simp [itoaLoop, not_lt.mpr h]

theorem itoaLoop_step (fuel k m : Nat) (buf : List Nat) (w : List (Int × Nat))
    (hm : 0 < m) (hk : 0 < k) (hkb : k ≤ buf.length) :
    itoaLoop (fuel + 1) { buf := buf, p := (k : Int), n := (m : Int), writes := w } =
      itoaLoop fuel
        { buf := buf.set (k - 1) (m % 10 + 48), p := ((k - 1 : Nat) : Int),
          n := ((m / 10 : Nat) : Int), writes := w ++ [((k : Int) - 1, m % 10 + 48)] } := by
  have hp : (k : Int) - 1 = ((k - 1 : Nat) : Int) := by omega
  have hn : (0 : Int) < (m : Int) := by omega
  have ht : Int.tdiv (m : Int) 10 = ((m / 10 : Nat) : Int) := by
    rw [Int.tdiv_eq_ediv (by omega) (by omega)]
    omega
  simp only [itoaLoop, hn, if_true, digitChar_natCast, ht]
  rw [hp, store_of_lt buf (k - 1) _ (by omega)]

theorem itoaLoop_front (fuel m : Nat) (buf : List Nat) (w : List (Int × Nat)) (hm : 0 < m) :
    itoaLoop (fuel + 1) { buf := buf, p := 0, n := (m : Int), writes := w } =
      Outcome.outOfBounds (-1) := by
  have hn : (0 : Int) < (m : Int) := by omega
  simp only [itoaLoop, hn, if_true]
  rw [store_neg _ _ _ (by omega)]
  rfl

theorem digits_pos (m : Nat) (hm : 0 < m) :
    Nat.digits 10 m = (m % 10) :: Nat.digits 10 (m / 10) :=
  Nat.digits_def' (by decide) hm

/-- With room for every digit, the loop ends normally: the digits of `m` lie, most-significant
first, in the slots just in front of offset `k`, and `p` points at the first of them. -/
theorem itoaLoop_fits (m : Nat) : ∀ (fuel k : Nat) (buf : List Nat) (w : List (Int × Nat)),
    (Nat.digits 10 m).length ≤ fuel → (Nat.digits 10 m).length ≤ k → k ≤ buf.length →
    itoaLoop fuel { buf := buf, p := (k : Int), n := (m : Int), writes := w } =
      Outcome.done
        { buf := buf.take (k - (Nat.digits 10 m).length) ++ digitBytes m ++ buf.drop k,
          p := ((k - (Nat.digits 10 m).length : Nat) : Int), n := 0,
          writes := w ++ digitStores (k : Int) (Nat.digits 10 m) } := by
  induction m using Nat.strong_induction_on with
  | _ m ih =>
    intro fuel k buf w hf hk hkb
    rcases Nat.eq_zero_or_pos m with h0 | hpos
    · subst h0
      rw [itoaLoop_nonpos _ _ (by simp)]
      simp [digitBytes, digitStores]
    · rw [digits_pos m hpos] at hf hk ⊢
      simp only [List.length_cons] at hf hk ⊢
      obtain ⟨f, rfl⟩ : ∃ f, fuel = f + 1 := ⟨fuel - 1, by omega⟩
      rw [itoaLoop_step f k m buf w hpos (by omega) hkb]
      rw [ih (m / 10) (Nat.div_lt_self hpos (by decide)) f (k - 1) _ _ (by omega) (by omega)
        (by simp; omega)]
      have hk1 : k - 1 - (Nat.digits 10 (m / 10)).length
          = k - ((Nat.digits 10 (m / 10)).length + 1) := by omega
      have hcast : ((k - 1 : Nat) : Int) = (k : Int) - 1 := by omega
      have hbytes : digitBytes m = digitBytes (m / 10) ++ [m % 10 + 48] := by
        simp [digitBytes, digits_pos m hpos]
      have htake : (buf.set (k - 1) (m % 10 + 48)).take (k - ((Nat.digits 10 (m / 10)).length + 1))
          = buf.take (k - ((Nat.digits 10 (m / 10)).length + 1)) := by
        rw [List.set_eq_take_append_cons_drop, if_pos (by omega),
          List.take_append_of_le_length (by simp; omega), List.take_take]
        congr 1
        omega
      have hdrop : (buf.set (k - 1) (m % 10 + 48)).drop (k - 1)
          = (m % 10 + 48) :: buf.drop k := by
        rw [List.set_eq_take_append_cons_drop, if_pos (by omega)]
        rw [List.drop_append_of_le_length (by simp; omega)]
        have : k - 1 + 1 = k := by omega
        simp [this, List.drop_take]
      simp only [hk1, hcast, hbytes, htake, hdrop, digitStores, List.append_assoc,
        List.singleton_append]

/-- With more digits than slots in front of `p`, the loop stores at offset `-1`. -/
theorem itoaLoop_overrun (m : Nat) : ∀ (fuel k : Nat) (buf : List Nat) (w : List (Int × Nat)),
    (Nat.digits 10 m).length ≤ fuel → k < (Nat.digits 10 m).length → k ≤ buf.length →
    itoaLoop fuel { buf := buf, p := (k : Int), n := (m : Int), writes := w } =
      Outcome.outOfBounds (-1) := by
  induction m using Nat.strong_induction_on with
  | _ m ih =>
    intro fuel k buf w hf hk hkb
    rcases Nat.eq_zero_or_pos m with h0 | hpos
    · subst h0
      simp at hk
    · rw [digits_pos m hpos] at hf hk
      simp only [List.length_cons] at hf hk
      obtain ⟨f, rfl⟩ : ∃ f, fuel = f + 1 := ⟨fuel - 1, by omega⟩
      rcases Nat.eq_zero_or_pos k with hk0 | hkpos
      · subst hk0
        exact itoaLoop_front f m buf w hpos
      · rw [itoaLoop_step f k m buf w hpos hkpos hkb]
        exact ih (m / 10) (Nat.div_lt_self hpos (by decide)) f (k - 1) _ _ (by omega) (by omega)
          (by simp; omega)

/-! ## Digit counts -/

theorem digits_length_le_self (m : Nat) : (Nat.digits 10 m).length ≤ m := by
  induction m using Nat.strong_induction_on with
  | _ m ih =>
    rcases Nat.eq_zero_or_pos m with h0 | hpos
    · subst h0
      simp
    · rw [digits_pos m hpos, List.length_cons]
      have := ih (m / 10) (Nat.div_lt_self hpos (by decide))
      omega

theorem digits_length_le_five (m : Nat) (hm : m ≤ 99999) : (Nat.digits 10 m).length ≤ 5 := by
  by_contra hlen
  have hne : m ≠ 0 := by
    rintro rfl
    simp at hlen
  have h1 : 10 ^ 6 ≤ 10 ^ (Nat.digits 10 m).length :=
    Nat.pow_le_pow_right (by decide) (by omega)
  have h2 := Nat.base_pow_length_digits_le 10 m (by decide) hne
  omega

theorem five_lt_digits_length (m : Nat) (hm : 100000 ≤ m) : 5 < (Nat.digits 10 m).length := by
  by_contra hlen
  have h1 : 10 ^ (Nat.digits 10 m).length ≤ 10 ^ 5 :=
    Nat.pow_le_pow_right (by decide) (by omega)
  have h2 : m < 10 ^ (Nat.digits 10 m).length := Nat.lt_base_pow_length_digits (by decide)
  omega

theorem digitBytes_length (m : Nat) : (digitBytes m).length = (Nat.digits 10 m).length := by
  simp [digitBytes]

theorem digitBytes_range (m : Nat) : ∀ c ∈ digitBytes m, 48 ≤ c ∧ c ≤ 57 := by
  intro c hc
  simp only [digitBytes, List.mem_reverse, List.mem_map] at hc
  obtain ⟨d, hd, rfl⟩ := hc
  have := Nat.digits_lt_base (by decide : 1 < 10) hd
  omega

/-! ## Reading the result -/

theorem scanCStr_append_zero (xs rest : List Nat) (h : ∀ c ∈ xs, c ≠ 0) :
    scanCStr (xs ++ 0 :: rest) = some xs := by
  induction xs with
  | nil => simp [scanCStr]
  | cons x xs ih =>
    have hx : x ≠ 0 := h x (by simp)
    have hxs : ∀ c ∈ xs, c ≠ 0 := fun c hc => h c (by simp [hc])
    simp [scanCStr, hx, ih hxs]

/-! ## The whole function -/

theorem store_terminator (buf0 : List Nat) (hb : buf0.length = 6) :
    store buf0 5 0 = some (buf0.set 5 0) :=
  store_of_lt buf0 5 0 (by omega)

/-- On a six-slot buffer and a value of at most five digits, `itoa` completes; the final buffer
is the untouched front part, then the digits, then the terminator. -/
theorem itoa_fits (buf0 : List Nat) (m : Nat) (hb : buf0.length = 6) (hm : m ≤ 99999) :
    itoa buf0 (m : Int) =
      Outcome.done
        { buf := buf0.take (5 - (Nat.digits 10 m).length) ++ digitBytes m ++ [0],
          p := ((5 - (Nat.digits 10 m).length : Nat) : Int), n := 0,
          writes := (5, 0) :: digitStores 5 (Nat.digits 10 m) } := by
  have hlen := digits_length_le_five m hm
  unfold itoa
  rw [store_terminator buf0 hb]
  simp only [Int.toNat_ofNat]
  have h := itoaLoop_fits m m 5 (buf0.set 5 0) [(5, 0)] (digits_length_le_self m) hlen
    (by simp [hb])
  have htake : (buf0.set 5 0).take (5 - (Nat.digits 10 m).length)
      = buf0.take (5 - (Nat.digits 10 m).length) := by
    rw [List.set_eq_take_append_cons_drop, if_pos (by omega),
      List.take_append_of_le_length (by simp; omega), List.take_take]
    congr 1
    omega
  have hdrop : (buf0.set 5 0).drop 5 = [0] := by
    rw [List.set_eq_take_append_cons_drop, if_pos (by omega),
      List.drop_append_of_le_length (by simp; omega)]
    have hnil : List.drop 6 buf0 = [] := List.drop_eq_nil_of_le (by omega)
    simp [List.drop_take, hnil]
  rw [htake, hdrop] at h
  exact h

/-- A value of six or more digits makes `itoa` store in front of the buffer. -/
theorem itoa_overrun (buf0 : List Nat) (m : Nat) (hb : buf0.length = 6) (hm : 100000 ≤ m) :
    itoa buf0 (m : Int) = Outcome.outOfBounds (-1) := by
  unfold itoa
  rw [store_terminator buf0 hb]
  simp only [Int.toNat_ofNat]
  exact itoaLoop_overrun m m 5 (buf0.set 5 0) [(5, 0)] (digits_length_le_self m)
    (five_lt_digits_length m hm) (by simp [hb])

/-- The string read through the returned pointer is the digit sequence. -/
theorem cstr_itoa_fits (buf0 : List Nat) (m : Nat) (hlen : (Nat.digits 10 m).length ≤ 5)
    (hb : buf0.length = 6) :
    cstr (buf0.take (5 - (Nat.digits 10 m).length) ++ digitBytes m ++ [0])
      ((5 - (Nat.digits 10 m).length : Nat) : Int) = some (digitBytes m) := by
  unfold cstr
  rw [if_pos (by omega)]
  simp only [Int.toNat_ofNat, List.append_assoc]
  rw [List.drop_append_of_le_length (by simp; omega)]
  have hnil : List.drop (5 - (Nat.digits 10 m).length)
      (List.take (5 - (Nat.digits 10 m).length) buf0) = [] :=
    List.drop_eq_nil_of_le (by simp)
  rw [hnil, List.nil_append]
  exact scanCStr_append_zero _ _ (fun c hc => by have := digitBytes_range m c hc; omega)

theorem itoaString_fits (buf0 : List Nat) (m : Nat) (hb : buf0.length = 6) (hm : m ≤ 99999) :
    itoaString buf0 (m : Int) = some (bytesToString (digitBytes m)) := by
  unfold itoaString
  rw [itoa_fits buf0 m hb hm]
  simp only [cstr_itoa_fits buf0 m (digits_length_le_five m hm) hb, Option.map_some']

/-! ## Digits by position -/

theorem digits_getElem (j : Nat) : ∀ m : Nat, j < (Nat.digits 10 m).length →
    (Nat.digits 10 m)[j]? = some (m / 10 ^ j % 10) := by
  induction j with
  | zero =>
    intro m hj
    have hpos : 0 < m := by
      rcases Nat.eq_zero_or_pos m with h0 | h
      · subst h0
        simp at hj
      · exact h
    rw [digits_pos m hpos]
    simp
  | succ j ih =>
    intro m hj
    have hpos : 0 < m := by
      rcases Nat.eq_zero_or_pos m with h0 | h
      · subst h0
        simp at hj
      · exact h
    rw [digits_pos m hpos] at hj ⊢
    simp only [List.length_cons] at hj
    rw [List.getElem?_cons_succ, ih (m / 10) (by omega), Nat.div_div_eq_div_mul, pow_succ,
      Nat.mul_comm]

theorem digitBytes_getElem (m i : Nat) (hi : i < (Nat.digits 10 m).length) :
    (digitBytes m)[i]? = some (48 + m / 10 ^ ((Nat.digits 10 m).length - 1 - i) % 10) := by
  unfold digitBytes
  rw [List.getElem?_reverse (by simpa using hi), List.getElem?_map, List.length_map,
    digits_getElem _ m (by omega)]
  simp [Nat.add_comm]

theorem pow_digits_length_le (m : Nat) (hm : 0 < m) :
    10 ^ ((Nat.digits 10 m).length - 1) ≤ m := by
  have h := Nat.base_pow_length_digits_le 10 m (by decide) (by omega)
  have hlen : 0 < (Nat.digits 10 m).length := by
    rw [digits_pos m hm]
    simp
  have hsplit : 10 ^ (Nat.digits 10 m).length = 10 * 10 ^ ((Nat.digits 10 m).length - 1) := by
    rw [← pow_succ']
    congr 1
    omega
  omega

theorem digitBytes_head (m : Nat) (hm : 0 < m) :
    ∃ c rest, digitBytes m = c :: rest ∧ 49 ≤ c ∧ c ≤ 57 := by
  have hlen : 0 < (Nat.digits 10 m).length := by
    rw [digits_pos m hm]
    simp
  have h0 := digitBytes_getElem m 0 hlen
  have hlo := pow_digits_length_le m hm
  have hhi : m < 10 ^ (Nat.digits 10 m).length := Nat.lt_base_pow_length_digits (by decide)
  have hsplit : 10 ^ (Nat.digits 10 m).length = 10 * 10 ^ ((Nat.digits 10 m).length - 1) := by
    rw [← pow_succ']
    congr 1
    omega
  have hq1 : 1 ≤ m / 10 ^ ((Nat.digits 10 m).length - 1) :=
    (Nat.one_le_div_iff (by positivity)).mpr hlo
  have hq2 : m / 10 ^ ((Nat.digits 10 m).length - 1) < 10 := by
    rw [Nat.div_lt_iff_lt_mul (by positivity)]
    omega
  rw [Nat.sub_zero, Nat.mod_eq_of_lt hq2] at h0
  cases hd : digitBytes m with
  | nil => rw [hd] at h0; simp at h0
  | cons c rest =>
    rw [hd] at h0
    simp only [List.getElem?_cons_zero, Option.some.injEq] at h0
    exact ⟨c, rest, rfl, by omega, by omega⟩

/-! ## The stores -/

theorem digitStores_length (k : Int) (ds : List Nat) : (digitStores k ds).length = ds.length := by
  induction ds generalizing k with
  | nil => rfl
  | cons d ds ih => simp [digitStores, ih]

theorem digitStores_bounds (ds : List Nat) : ∀ (k : Int) (w : Int × Nat),
    w ∈ digitStores k ds → k - (ds.length : Int) ≤ w.1 ∧ w.1 ≤ k - 1 := by
  induction ds with
  | nil =>
    intro k w hw
    simp [digitStores] at hw
  | cons d ds ih =>
    intro k w hw
    simp only [digitStores, List.mem_cons] at hw
    rcases hw with rfl | hw
    · simp only [List.length_cons]
      push_cast
      omega
    · have := ih (k - 1) w hw
      simp only [List.length_cons]
      push_cast
      omega

theorem digitStores_snd (ds : List Nat) : ∀ k : Int,
    (digitStores k ds).map Prod.snd = ds.map (fun d => d + 48) := by
  induction ds with
  | nil =>
    intro k
    rfl
  | cons d ds ih =>
    intro k
    simp [digitStores, ih]

theorem digitStores_getElem (ds : List Nat) : ∀ (k : Int) (j : Nat), j < ds.length →
    (digitStores k ds)[j]? = (ds[j]?).map (fun d => (k - 1 - (j : Int), d + 48)) := by
  induction ds with
  | nil =>
    intro k j hj
    simp at hj
  | cons d ds ih =>
    intro k j hj
    cases j with
    | zero => simp [digitStores]
    | succ j =>
      simp only [List.length_cons] at hj
      simp only [digitStores, List.getElem?_cons_succ]
      rw [ih (k - 1) j (by omega)]
      congr 1
      funext d
      push_cast
      congr 1
      omega

theorem front_length (buf0 : List Nat) (m : Nat) (hb : buf0.length = 6) :
    (buf0.take (5 - (Nat.digits 10 m).length)).length = 5 - (Nat.digits 10 m).length := by
  rw [List.length_take, hb]
  omega

theorem terminator_after (buf0 : List Nat) (m : Nat)
    (hb : buf0.length = 6) :
    (buf0.take (5 - (Nat.digits 10 m).length) ++ digitBytes m ++ [0])[
      5 - (Nat.digits 10 m).length + (Nat.digits 10 m).length]? = some 0 := by
  have hfl := front_length buf0 m hb
  rw [List.getElem?_append_right (by rw [List.length_append, hfl, digitBytes_length])]
  rw [List.length_append, hfl, digitBytes_length, Nat.sub_self]
  rfl

/-! ## Parsing back -/

theorem digitBytes_zero : digitBytes 0 = [] := by
  simp [digitBytes]

theorem digitBytes_pos (m : Nat) (hm : 0 < m) :
    digitBytes m = digitBytes (m / 10) ++ [m % 10 + 48] := by
  simp [digitBytes, digits_pos m hm]

theorem foldl_digitBytes (m : Nat) :
    (digitBytes m).foldl (fun acc c => 10 * acc + (c - 48)) 0 = m := by
  induction m using Nat.strong_induction_on with
  | _ m ih =>
    rcases Nat.eq_zero_or_pos m with h0 | hpos
    · subst h0
      simp [digitBytes_zero]
    · rw [digitBytes_pos m hpos, List.foldl_append, ih (m / 10) (Nat.div_lt_self hpos (by decide))]
      simp only [List.foldl_cons, List.foldl_nil]
      omega

theorem parseDecimal_digitBytes (m : Nat) (hm : 0 < m) :
    parseDecimal (digitBytes m) = some m := by
  obtain ⟨c, rest, hd, _, _⟩ := digitBytes_head m hm
  unfold parseDecimal
  rw [if_pos ⟨by simp [hd], digitBytes_range m⟩, foldl_digitBytes]

/-- Away from zero the round-trip law holds on the whole five-digit range. -/
theorem roundTrip_pos (buf0 : List Nat) (m : Nat) (hb : buf0.length = 6) (hm : 0 < m)
    (hmax : m ≤ 99999) : roundTrip buf0 (m : Int) = some m := by
  unfold roundTrip
  rw [itoa_fits buf0 m hb hmax]
  simp only [cstr_itoa_fits buf0 m (digits_length_le_five m hmax) hb, Option.some_bind]
  exact parseDecimal_digitBytes m hm

/-- On the five-digit range `main` emits the label followed by the bytes `itoa` produced, which
are the digits of the probed value when it is positive and nothing at all when it is 0, and
returns 0. -/
theorem main_pos (buf0 : List Nat) (m : Nat) (hb : buf0.length = 6) (hmax : m ≤ 99999) :
    main buf0 (m : Int) = Outcome.done (label ++ digitBytes m, 0) := by
  unfold main
  rw [itoa_fits buf0 m hb hmax]
  simp only [cstr_itoa_fits buf0 m (digits_length_le_five m hmax) hb]
  rfl

theorem length_six (l : List Nat) (h : l.length = 6) : ∃ a b c d e f, l = [a, b, c, d, e, f] := by
  match l, h with
  | [a, b, c, d, e, f], _ => exact ⟨a, b, c, d, e, f, rfl⟩

/-! ## The claims -/

/-- C1 (evaluated at the failing input): for every content of the six-slot buffer, `itoa(0)`
stores only the terminator, returns the pointer `buf + 5`, and the string read through it is
the empty string, not `"0"`. -/
theorem itoa_zero_is_empty (a b c d e f : Nat) :
    itoa [a, b, c, d, e, f] 0 =
        Outcome.done { buf := [a, b, c, d, e, 0], p := 5, n := 0, writes := [(5, 0)] } ∧
      itoaString [a, b, c, d, e, f] 0 = some "" ∧
      itoaString [a, b, c, d, e, f] 0 ≠ some "0" :=
  ⟨rfl, rfl, show (some "" : Option String) ≠ some "0" by decide⟩

/-- C2 (evaluated at the failing input): for every content of the six-slot buffer, the string
returned by `itoa(0)` is empty, so parsing it as a decimal integer does not yield 0: the strict
parser rejects it. -/
theorem roundTrip_zero_fails (a b c d e f : Nat) :
    roundTrip [a, b, c, d, e, f] 0 = none ∧ roundTrip [a, b, c, d, e, f] 0 ≠ some 0 :=
  ⟨rfl, show (none : Option Nat) ≠ some 0 by decide⟩

/-- C3: for every `n` with `1 ≤ n ≤ 99999`, `itoa(n)` completes and the string read through the
returned pointer is the canonical decimal numeral of `n`: its length `len` is the number of
decimal digits of `n` (`len = ⌊log₁₀ n⌋ + 1`, that is `10^(len-1) ≤ n < 10^len`), its `i`-th
character is `'0' + (n / 10^(len-1-i)) mod 10`, and the terminator is the byte right after the
last digit. -/
theorem itoa_canonical_decimal (buf0 : List Nat) (n : Int) (hb : buf0.length = 6)
    (h1 : 1 ≤ n) (h2 : n ≤ 99999) :
    ∃ s bytes, itoa buf0 n = Outcome.done s ∧ cstr s.buf s.p = some bytes ∧
      bytes.length = Nat.log 10 n.toNat + 1 ∧
      10 ^ (bytes.length - 1) ≤ n.toNat ∧ n.toNat < 10 ^ bytes.length ∧
      (∀ i, i < bytes.length →
        bytes[i]? = some (48 + (n.toNat / 10 ^ (bytes.length - 1 - i)) % 10)) ∧
      s.buf[s.p.toNat + bytes.length]? = some 0 := by
  obtain ⟨m, rfl⟩ := Int.eq_ofNat_of_zero_le (by omega : 0 ≤ n)
  have hm : 0 < m := by omega
  have hmax : m ≤ 99999 := by omega
  have hlen := digits_length_le_five m hmax
  refine ⟨_, digitBytes m, itoa_fits buf0 m hb hmax, cstr_itoa_fits buf0 m hlen hb, ?_, ?_, ?_,
    ?_, ?_⟩
  · rw [digitBytes_length, Int.toNat_ofNat]
    exact Nat.digits_len 10 m (by decide) (by omega)
  · rw [digitBytes_length, Int.toNat_ofNat]
    exact pow_digits_length_le m hm
  · rw [digitBytes_length, Int.toNat_ofNat]
    exact Nat.lt_base_pow_length_digits (by decide)
  · intro i hi
    rw [digitBytes_length] at hi ⊢
    rw [Int.toNat_ofNat]
    exact digitBytes_getElem m i hi
  · simp only [Int.toNat_ofNat, digitBytes_length]
    exact terminator_after buf0 m hb

theorem itoa_canonical_decimal_witness :
    (([0, 0, 0, 0, 0, 0] : List Nat).length = 6 ∧ (1 : Int) ≤ 640 ∧ (640 : Int) ≤ 99999) ∧
    ∃ s bytes, itoa [0, 0, 0, 0, 0, 0] 640 = Outcome.done s ∧ cstr s.buf s.p = some bytes ∧
      bytes.length = Nat.log 10 (640 : Int).toNat + 1 ∧
      10 ^ (bytes.length - 1) ≤ (640 : Int).toNat ∧ (640 : Int).toNat < 10 ^ bytes.length ∧
      (∀ i, i < bytes.length →
        bytes[i]? = some (48 + ((640 : Int).toNat / 10 ^ (bytes.length - 1 - i)) % 10)) ∧
      s.buf[s.p.toNat + bytes.length]? = some 0 :=
  ⟨⟨rfl, by decide, by decide⟩,
    itoa_canonical_decimal [0, 0, 0, 0, 0, 0] 640 rfl (by decide) (by decide)⟩

/-- C4: for every `n` with `1 ≤ n ≤ 65535`, `itoa(n)` completes and the string read through
the returned pointer is non-empty with a first character other than `'0'`; `itoa(7)` is `"7"`
(not `"07"`). -/
theorem itoa_no_leading_zero (buf0 : List Nat) (n : Int) (hb : buf0.length = 6)
    (h1 : 1 ≤ n) (h2 : n ≤ 65535) :
    (∃ s c rest, itoa buf0 n = Outcome.done s ∧ cstr s.buf s.p = some (c :: rest) ∧ c ≠ 48) ∧
      itoaString buf0 7 = some "7" := by
  obtain ⟨m, rfl⟩ := Int.eq_ofNat_of_zero_le (by omega : 0 ≤ n)
  have hm : 0 < m := by omega
  have hmax : m ≤ 99999 := by omega
  obtain ⟨c, rest, hd, hc, _⟩ := digitBytes_head m hm
  refine ⟨⟨_, c, rest, itoa_fits buf0 m hb hmax, ?_, by omega⟩, ?_⟩
  · rw [cstr_itoa_fits buf0 m (digits_length_le_five m hmax) hb, hd]
  · obtain ⟨a, b, c, d, e, f, rfl⟩ := length_six buf0 hb
    rfl

theorem itoa_no_leading_zero_witness :
    (([9, 9, 9, 9, 9, 9] : List Nat).length = 6 ∧ (1 : Int) ≤ 7 ∧ (7 : Int) ≤ 65535) ∧
    ((∃ s c rest, itoa [9, 9, 9, 9, 9, 9] 7 = Outcome.done s ∧
        cstr s.buf s.p = some (c :: rest) ∧ c ≠ 48) ∧
      itoaString [9, 9, 9, 9, 9, 9] 7 = some "7") :=
  ⟨⟨rfl, by decide, by decide⟩, itoa_no_leading_zero [9, 9, 9, 9, 9, 9] 7 rfl (by decide)
    (by decide)⟩

/-- C5: for every content of the six-slot buffer, `itoa(65535)` completes, the string read
through the returned pointer is `"65535"` (five characters, the terminator right after them in
slot 5), the returned pointer is slot 0 of the buffer, the buffer still has six slots, and every
store of the call is at an index in `0..5`. -/
theorem itoa_max_magnitude (buf0 : List Nat) (hb : buf0.length = 6) :
    ∃ s, itoa buf0 65535 = Outcome.done s ∧
      cstr s.buf s.p = some [54, 53, 53, 51, 53] ∧
      itoaString buf0 65535 = some "65535" ∧
      s.p = 0 ∧ s.buf.length = 6 ∧ s.buf[5]? = some 0 ∧
      s.writes.length = 6 ∧ ∀ w ∈ s.writes, 0 ≤ w.1 ∧ w.1 ≤ 5 := by
  obtain ⟨a, b, c, d, e, f, rfl⟩ := length_six buf0 hb
  refine ⟨{ buf := [54, 53, 53, 51, 53, 0], p := 0, n := 0,
            writes := [(5, 0), (4, 53), (3, 51), (2, 53), (1, 53), (0, 54)] },
    rfl, rfl, rfl, rfl, rfl, rfl, rfl, ?_⟩
  decide

theorem itoa_max_magnitude_witness :
    ([1, 50, 51, 52, 0, 7] : List Nat).length = 6 ∧
    ∃ s, itoa [1, 50, 51, 52, 0, 7] 65535 = Outcome.done s ∧
      cstr s.buf s.p = some [54, 53, 53, 51, 53] ∧
      itoaString [1, 50, 51, 52, 0, 7] 65535 = some "65535" ∧
      s.p = 0 ∧ s.buf.length = 6 ∧ s.buf[5]? = some 0 ∧
      s.writes.length = 6 ∧ ∀ w ∈ s.writes, 0 ≤ w.1 ∧ w.1 ≤ 5 :=
  ⟨rfl, itoa_max_magnitude [1, 50, 51, 52, 0, 7] rfl⟩

/-- C6 (counterexample): `100000` is a non-negative value of C `int`, and `itoa(100000)` on
the zero-filled buffer does not complete within the buffer: after five digit stores the sixth
one is at offset `-1`, in front of `buf`. -/
theorem itoa_overruns_at_100000 :
    (0 : Int) ≤ 100000 ∧ (100000 : Int) ≤ INT_MAX ∧
      itoa [0, 0, 0, 0, 0, 0] 100000 = Outcome.outOfBounds (-1) ∧
      ¬ ∃ s, itoa [0, 0, 0, 0, 0, 0] 100000 = Outcome.done s := by
  refine ⟨by decide, by decide, by decide, ?_⟩
  rintro ⟨s, hs⟩
  have h : itoa [0, 0, 0, 0, 0, 0] 100000 = Outcome.outOfBounds (-1) := by decide
  rw [h] at hs
  cases hs

/-- C6 (amended): for every non-negative `n`, `itoa(n)` completes with at most five digit
stores and every store index in `0..5` exactly when `n ≤ 99999`, and it stores at offset `-1`,
in front of the buffer, exactly when `n ≥ 100000`. -/
theorem itoa_capacity_five_digits (buf0 : List Nat) (n : Int) (hb : buf0.length = 6)
    (h0 : 0 ≤ n) :
    ((∃ s, itoa buf0 n = Outcome.done s ∧ (digitWrites s).length ≤ 5 ∧
        ∀ w ∈ s.writes, 0 ≤ w.1 ∧ w.1 ≤ 5) ↔ n ≤ 99999) ∧
      (itoa buf0 n = Outcome.outOfBounds (-1) ↔ 100000 ≤ n) := by
  obtain ⟨m, rfl⟩ := Int.eq_ofNat_of_zero_le h0
  rcases Nat.lt_or_ge m 100000 with hlt | hge
  · have hmax : m ≤ 99999 := by omega
    have hlen := digits_length_le_five m hmax
    have hfit := itoa_fits buf0 m hb hmax
    refine ⟨⟨fun _ => by omega, fun _ => ⟨_, hfit, ?_, ?_⟩⟩, ⟨fun h => ?_, fun h => by omega⟩⟩
    · simpa [digitWrites, digitStores_length] using hlen
    · intro w hw
      simp only [List.mem_cons] at hw
      rcases hw with rfl | hw
      · exact ⟨by decide, by decide⟩
      · have := digitStores_bounds _ 5 w hw
        omega
    · rw [hfit] at h
      cases h
  · have hover := itoa_overrun buf0 m hb hge
    refine ⟨⟨fun h => ?_, fun h => by omega⟩, ⟨fun _ => by omega, fun _ => hover⟩⟩
    obtain ⟨s, hs, _⟩ := h
    rw [hover] at hs
    cases hs

theorem itoa_capacity_five_digits_witness :
    (([0, 0, 0, 0, 0, 0] : List Nat).length = 6 ∧ (0 : Int) ≤ 99999) ∧
    (((∃ s, itoa [0, 0, 0, 0, 0, 0] 99999 = Outcome.done s ∧ (digitWrites s).length ≤ 5 ∧
        ∀ w ∈ s.writes, 0 ≤ w.1 ∧ w.1 ≤ 5) ↔ (99999 : Int) ≤ 99999) ∧
      (itoa [0, 0, 0, 0, 0, 0] 99999 = Outcome.outOfBounds (-1) ↔ (100000 : Int) ≤ 99999)) :=
  ⟨⟨rfl, by decide⟩, itoa_capacity_five_digits [0, 0, 0, 0, 0, 0] 99999 rfl (by decide)⟩

/-- C7: for every Magnitude `n` with `0 ≤ n ≤ 65535`, `itoa(n)` completes (no store falls
outside the buffer), every store of the call is at an index in `0..5`, and the returned offset
`p` satisfies `0 ≤ p ≤ 5`. -/
theorem itoa_in_domain_bounds (buf0 : List Nat) (n : Int) (hb : buf0.length = 6)
    (h0 : 0 ≤ n) (h2 : n ≤ 65535) :
    ∃ s, itoa buf0 n = Outcome.done s ∧ (∀ w ∈ s.writes, 0 ≤ w.1 ∧ w.1 ≤ 5) ∧
      0 ≤ s.p ∧ s.p ≤ 5 := by
  obtain ⟨m, rfl⟩ := Int.eq_ofNat_of_zero_le h0
  have hmax : m ≤ 99999 := by omega
  have hlen := digits_length_le_five m hmax
  refine ⟨_, itoa_fits buf0 m hb hmax, ?_, ?_, ?_⟩
  · intro w hw
    simp only [List.mem_cons] at hw
    rcases hw with rfl | hw
    · exact ⟨by decide, by decide⟩
    · have := digitStores_bounds _ 5 w hw
      omega
  · simp only
    omega
  · simp only
    omega

theorem itoa_in_domain_bounds_witness :
    (([0, 0, 0, 0, 0, 0] : List Nat).length = 6 ∧ (0 : Int) ≤ 65535 ∧ (65535 : Int) ≤ 65535) ∧
    ∃ s, itoa [0, 0, 0, 0, 0, 0] 65535 = Outcome.done s ∧
      (∀ w ∈ s.writes, 0 ≤ w.1 ∧ w.1 ≤ 5) ∧ 0 ≤ s.p ∧ s.p ≤ 5 :=
  ⟨⟨rfl, by decide, by decide⟩,
    itoa_in_domain_bounds [0, 0, 0, 0, 0, 0] 65535 rfl (by decide) (by decide)⟩

/-- C8: for every `n` with `0 ≤ n ≤ 65535` and any two contents of the six-slot buffer left
by earlier calls, both runs of `itoa(n)` complete, return the same offset, and the strings read
through the returned pointers are identical. -/
theorem itoa_repeatable (b1 b2 : List Nat) (n : Int) (hb1 : b1.length = 6)
    (hb2 : b2.length = 6) (h0 : 0 ≤ n) (h2 : n ≤ 65535) :
    ∃ s1 s2 bytes, itoa b1 n = Outcome.done s1 ∧ itoa b2 n = Outcome.done s2 ∧
      s1.p = s2.p ∧ cstr s1.buf s1.p = some bytes ∧ cstr s2.buf s2.p = some bytes ∧
      itoaString b1 n = itoaString b2 n := by
  obtain ⟨m, rfl⟩ := Int.eq_ofNat_of_zero_le h0
  have hmax : m ≤ 99999 := by omega
  have hlen := digits_length_le_five m hmax
  refine ⟨_, _, digitBytes m, itoa_fits b1 m hb1 hmax, itoa_fits b2 m hb2 hmax, rfl,
    cstr_itoa_fits b1 m hlen hb1, cstr_itoa_fits b2 m hlen hb2, ?_⟩
  rw [itoaString_fits b1 m hb1 hmax, itoaString_fits b2 m hb2 hmax]

theorem itoa_repeatable_witness :
    (([0, 0, 0, 0, 0, 0] : List Nat).length = 6 ∧ ([57, 57, 57, 57, 57, 33] : List Nat).length = 6 ∧
      (0 : Int) ≤ 640 ∧ (640 : Int) ≤ 65535) ∧
    ∃ s1 s2 bytes, itoa [0, 0, 0, 0, 0, 0] 640 = Outcome.done s1 ∧
      itoa [57, 57, 57, 57, 57, 33] 640 = Outcome.done s2 ∧
      s1.p = s2.p ∧ cstr s1.buf s1.p = some bytes ∧ cstr s2.buf s2.p = some bytes ∧
      itoaString [0, 0, 0, 0, 0, 0] 640 = itoaString [57, 57, 57, 57, 57, 33] 640 :=
  ⟨⟨rfl, rfl, by decide, by decide⟩,
    itoa_repeatable [0, 0, 0, 0, 0, 0] [57, 57, 57, 57, 57, 33] 640 rfl rfl (by decide)
      (by decide)⟩

/-- C9 (evaluated at the failing input): when the memory probe returns 0, for every content of
the six-slot buffer, `main` returns 0 and the text handed to the output sink is the label alone,
`"Conventional Memory: "`, not `"Conventional Memory: 0"`. -/
theorem main_zero_output (a b c d e f : Nat) :
    mainOutput [a, b, c, d, e, f] 0 = some ("Conventional Memory: ", 0) ∧
      mainOutput [a, b, c, d, e, f] 0 ≠ some ("Conventional Memory: 0", 0) :=
  ⟨rfl, show (some ("Conventional Memory: ", 0) : Option (String × Int))
    ≠ some ("Conventional Memory: 0", 0) by decide⟩

/-- C10: for every `n` with `0 ≤ n ≤ 65535`, after `itoa(n)` the buffer still has six slots,
slot 5 holds the terminator byte 0, the returned offset is 5 minus the number of digits
written, the `j`-th digit store (counting from 0) went to index `4 - j` and the final buffer
holds that digit there, and the slots from the returned offset up to index 4 read the digits
written, last written first. -/
theorem itoa_buffer_layout (buf0 : List Nat) (n : Int) (hb : buf0.length = 6)
    (h0 : 0 ≤ n) (h2 : n ≤ 65535) :
    ∃ s, itoa buf0 n = Outcome.done s ∧ s.buf.length = 6 ∧ s.buf[5]? = some 0 ∧
      s.p = 5 - ((digitWrites s).length : Int) ∧
      (∀ j, j < (digitWrites s).length →
        ∃ c, (digitWrites s)[j]? = some ((4 : Int) - (j : Int), c) ∧ s.buf[4 - j]? = some c) ∧
      (s.buf.drop s.p.toNat).take (digitWrites s).length
        = ((digitWrites s).map Prod.snd).reverse := by
  obtain ⟨m, rfl⟩ := Int.eq_ofNat_of_zero_le h0
  have hmax : m ≤ 99999 := by omega
  have hlen := digits_length_le_five m hmax
  have hfl := front_length buf0 m hb
  refine ⟨_, itoa_fits buf0 m hb hmax, ?_, ?_, ?_, ?_, ?_⟩
  · simp only [List.length_append, hfl, digitBytes_length, List.length_singleton]
    omega
  · have h := terminator_after buf0 m hb
    have h5 : 5 - (Nat.digits 10 m).length + (Nat.digits 10 m).length = 5 := by omega
    rw [h5] at h
    exact h
  · simp only [digitWrites, List.tail_cons, digitStores_length]
    omega
  · intro j hj
    simp only [digitWrites, List.tail_cons, digitStores_length] at hj ⊢
    refine ⟨48 + m / 10 ^ j % 10, ?_, ?_⟩
    · rw [digitStores_getElem _ 5 j hj, digits_getElem j m hj]
      simp only [Option.map_some', Option.some.injEq, Prod.mk.injEq]
      constructor <;> omega
    · rw [List.append_assoc, List.getElem?_append_right (by rw [hfl]; omega), hfl,
        List.getElem?_append_left (by rw [digitBytes_length]; omega),
        digitBytes_getElem m _ (by omega)]
      have hidx : (Nat.digits 10 m).length - 1 - (4 - j - (5 - (Nat.digits 10 m).length)) = j := by
        omega
      rw [hidx]
  · simp only [digitWrites, List.tail_cons, digitStores_length, Int.toNat_ofNat]
    rw [List.append_assoc, List.drop_append_of_le_length (by rw [hfl])]
    have hnil : List.drop (5 - (Nat.digits 10 m).length)
        (List.take (5 - (Nat.digits 10 m).length) buf0) = [] :=
      List.drop_eq_nil_of_le (by simp)
    rw [hnil, List.nil_append, List.take_append_of_le_length (by rw [digitBytes_length]),
      List.take_of_length_le (by rw [digitBytes_length])]
    rw [digitStores_snd]
    rfl

theorem itoa_buffer_layout_witness :
    (([7, 7, 7, 7, 7, 7] : List Nat).length = 6 ∧ (0 : Int) ≤ 640 ∧ (640 : Int) ≤ 65535) ∧
    ∃ s, itoa [7, 7, 7, 7, 7, 7] 640 = Outcome.done s ∧ s.buf.length = 6 ∧
      s.buf[5]? = some 0 ∧
      s.p = 5 - ((digitWrites s).length : Int) ∧
      (∀ j, j < (digitWrites s).length →
        ∃ c, (digitWrites s)[j]? = some ((4 : Int) - (j : Int), c) ∧ s.buf[4 - j]? = some c) ∧
      (s.buf.drop s.p.toNat).take (digitWrites s).length
        = ((digitWrites s).map Prod.snd).reverse :=
  ⟨⟨rfl, by decide, by decide⟩,
    itoa_buffer_layout [7, 7, 7, 7, 7, 7] 640 rfl (by decide) (by decide)⟩

/-! ## Iteration count -/

/-- Fewer units of fuel than digits do not finish the loop: every iteration uses one unit. -/
theorem itoaLoop_short (m : Nat) : ∀ (fuel k : Nat) (buf : List Nat) (w : List (Int × Nat)),
    fuel < (Nat.digits 10 m).length → fuel ≤ k → k ≤ buf.length →
    itoaLoop fuel { buf := buf, p := (k : Int), n := (m : Int), writes := w } =
      Outcome.outOfFuel := by
  induction m using Nat.strong_induction_on with
  | _ m ih =>
    intro fuel k buf w hf hk hkb
    rcases Nat.eq_zero_or_pos m with h0 | hpos
    · subst h0
      simp at hf
    · rw [digits_pos m hpos] at hf
      simp only [List.length_cons] at hf
      have hn : (0 : Int) < (m : Int) := by omega
      cases fuel with
      | zero => simp [itoaLoop, hn]
      | succ f =>
        rw [itoaLoop_step f k m buf w hpos (by omega) hkb]
        exact ih (m / 10) (Nat.div_lt_self hpos (by decide)) f (k - 1) _ _ (by omega) (by omega)
          (by simp; omega)

theorem itoa_nonpos (buf0 : List Nat) (n : Int) (hb : buf0.length = 6) (hn : n ≤ 0) :
    itoa buf0 n =
      Outcome.done { buf := buf0.set 5 0, p := 5, n := n, writes := [(5, 0)] } := by
  unfold itoa
  rw [store_terminator buf0 hb]
  exact itoaLoop_nonpos _ _ hn

theorem tdiv_ten_lt (n : Int) (hn : 1 ≤ n) : 0 ≤ Int.tdiv n 10 ∧ Int.tdiv n 10 < n := by
  rw [Int.tdiv_eq_ediv (by omega) (by omega)]
  omega

theorem itoa_eq_loop (buf0 : List Nat) (n : Int) (hb : buf0.length = 6) :
    itoa buf0 n = itoaLoop n.toNat (loopEntry buf0 n) := by
  unfold itoa loopEntry
  rw [store_terminator buf0 hb]

/-- From the entry state, any fuel that covers the digits of a value of at most five digits
ends the loop in the same final state. -/
theorem itoaLoop_entry_fits (buf0 : List Nat) (m fuel : Nat) (hb : buf0.length = 6)
    (hm : m ≤ 99999) (hf : (Nat.digits 10 m).length ≤ fuel) :
    itoaLoop fuel (loopEntry buf0 (m : Int)) = itoa buf0 (m : Int) := by
  have hlen := digits_length_le_five m hm
  have h1 := itoaLoop_fits m fuel 5 (buf0.set 5 0) [(5, 0)] hf hlen (by simp [hb])
  have h2 := itoaLoop_fits m m 5 (buf0.set 5 0) [(5, 0)] (digits_length_le_self m) hlen
    (by simp [hb])
  rw [itoa_eq_loop buf0 _ hb, Int.toNat_ofNat]
  unfold loopEntry
  exact h1.trans h2.symm

theorem storeFlat_of_store (buf b : List Nat) (i : Int) (c : Nat)
    (h : store buf i c = some b) : storeFlat buf i c = b := by
  unfold store at h
  unfold storeFlat
  split at h
  · next hin =>
    rw [if_pos hin]
    exact Option.some.inj h
  · cases h

/-- Every run of the bounds-checked loop that completes is a run of the loop on the machine,
with the same final state. -/
theorem itoaLoopFlat_of_done (fuel : Nat) : ∀ s s2 : ItoaState,
    itoaLoop fuel s = Outcome.done s2 → itoaLoopFlat fuel s = some s2 := by
  induction fuel with
  | zero =>
    intro s s2 h
    unfold itoaLoop at h
    unfold itoaLoopFlat
    split at h
    · cases h
    · next hn =>
      rw [if_neg hn]
      cases h
      rfl
  | succ f ih =>
    intro s s2 h
    unfold itoaLoop at h
    unfold itoaLoopFlat
    split at h
    · next hn =>
      rw [if_pos hn]
      split at h
      · cases h
      · next b hst =>
        rw [storeFlat_of_store _ _ _ _ hst]
        exact ih _ _ h
    · next hn =>
      rw [if_neg hn]
      cases h
      rfl

theorem itoaLoopFlat_nonpos (fuel : Nat) (s : ItoaState) (h : s.n ≤ 0) :
    itoaLoopFlat fuel s = some s := by
  cases fuel <;> simp [itoaLoopFlat, not_lt.mpr h]

theorem itoaLoopFlat_step (fuel m : Nat) (p : Int) (buf : List Nat) (w : List (Int × Nat))
    (hm : 0 < m) :
    itoaLoopFlat (fuel + 1) { buf := buf, p := p, n := (m : Int), writes := w } =
      itoaLoopFlat fuel
        { buf := storeFlat buf (p - 1) (m % 10 + 48), p := p - 1,
          n := ((m / 10 : Nat) : Int), writes := w ++ [(p - 1, m % 10 + 48)] } := by
  have hn : (0 : Int) < (m : Int) := by omega
  have ht : Int.tdiv (m : Int) 10 = ((m / 10 : Nat) : Int) := by
    rw [Int.tdiv_eq_ediv (by omega) (by omega)]
    omega
  simp only [itoaLoopFlat, hn, if_true, digitChar_natCast, ht]

/-- With fuel for every digit the loop ends: `n` is 0, `p` has moved one slot per digit, and
one store per digit has been made. -/
theorem itoaLoopFlat_exact (m : Nat) : ∀ (fuel : Nat) (p : Int) (buf : List Nat)
    (w : List (Int × Nat)), (Nat.digits 10 m).length ≤ fuel →
    ∃ b, itoaLoopFlat fuel { buf := buf, p := p, n := (m : Int), writes := w } =
      some { buf := b, p := p - ((Nat.digits 10 m).length : Int), n := 0,
             writes := w ++ digitStores p (Nat.digits 10 m) } := by
  induction m using Nat.strong_induction_on with
  | _ m ih =>
    intro fuel p buf w hf
    rcases Nat.eq_zero_or_pos m with h0 | hpos
    · subst h0
      rw [itoaLoopFlat_nonpos _ _ (by simp)]
      exact ⟨buf, by simp [digitStores]⟩
    · rw [digits_pos m hpos] at hf ⊢
      simp only [List.length_cons] at hf ⊢
      obtain ⟨f, rfl⟩ : ∃ f, fuel = f + 1 := ⟨fuel - 1, by omega⟩
      rw [itoaLoopFlat_step f m p buf w hpos]
      obtain ⟨b, hb⟩ := ih (m / 10) (Nat.div_lt_self hpos (by decide)) f (p - 1)
        (storeFlat buf (p - 1) (m % 10 + 48)) (w ++ [(p - 1, m % 10 + 48)]) (by omega)
      refine ⟨b, ?_⟩
      rw [hb]
      simp only [digitStores, List.append_assoc, List.singleton_append]
      congr 2
      push_cast
      omega

/-- Fewer units of fuel than digits do not finish the loop. -/
theorem itoaLoopFlat_short (m : Nat) : ∀ (fuel : Nat) (p : Int) (buf : List Nat)
    (w : List (Int × Nat)), fuel < (Nat.digits 10 m).length →
    itoaLoopFlat fuel { buf := buf, p := p, n := (m : Int), writes := w } = none := by
  induction m using Nat.strong_induction_on with
  | _ m ih =>
    intro fuel p buf w hf
    rcases Nat.eq_zero_or_pos m with h0 | hpos
    · subst h0
      simp at hf
    · rw [digits_pos m hpos] at hf
      simp only [List.length_cons] at hf
      have hn : (0 : Int) < (m : Int) := by omega
      cases fuel with
      | zero => simp [itoaLoopFlat, hn]
      | succ f =>
        rw [itoaLoopFlat_step f m p buf w hpos]
        exact ih (m / 10) (Nat.div_lt_self hpos (by decide)) f _ _ _ (by omega)

/-- The loop on the machine at a seven-digit value: seven iterations, the last two stores in
front of the buffer, and six units of fuel are not enough. -/
theorem itoaLoopFlat_at_1000000 :
    itoaLoopFlat 7 (loopEntry [0, 0, 0, 0, 0, 0] 1000000) =
        some { buf := [48, 48, 48, 48, 48, 0], p := -2, n := 0,
               writes := [(5, 0), (4, 48), (3, 48), (2, 48), (1, 48), (0, 48), (-1, 48),
                 (-2, 49)] } ∧
      itoaLoopFlat 6 (loopEntry [0, 0, 0, 0, 0, 0] 1000000) = none := by
  decide

/-- C11: for every integer `n`, of any sign, the digit-extraction loop of `itoa` terminates:
started in the state `itoa` enters it with, it ends within `n.toNat` units of fuel with `n ≤ 0`.
For `n ≤ 0` it runs zero iterations: with no fuel at all it is already finished in the entry
state.  For `n ≥ 1` the value shrinks at every iteration (`0 ≤ n / 10 < n`) and the loop runs
exactly `⌊log₁₀ n⌋ + 1` iterations: any fuel of at least that much ends it, with `n = 0`, that
many digit stores and `p` moved that many slots, and no smaller fuel ends it.  The loop meant
is the one of lines 17-20 as the machine runs it, which agrees with the bounds-checked loop on
every run that completes. -/
theorem itoa_loop_terminates (buf0 : List Nat) (n : Int) (hb : buf0.length = 6) :
    itoa buf0 n = itoaLoop n.toNat (loopEntry buf0 n) ∧
      (∀ fuel s, itoaLoop fuel (loopEntry buf0 n) = Outcome.done s →
        itoaLoopFlat fuel (loopEntry buf0 n) = some s) ∧
      (∃ s, itoaLoopFlat n.toNat (loopEntry buf0 n) = some s ∧ s.n ≤ 0) ∧
      (n ≤ 0 → ∀ fuel, itoaLoopFlat fuel (loopEntry buf0 n) = some (loopEntry buf0 n) ∧
        (digitWrites (loopEntry buf0 n)).length = 0) ∧
      (1 ≤ n → 0 ≤ Int.tdiv n 10 ∧ Int.tdiv n 10 < n) ∧
      (1 ≤ n →
        (∀ fuel, Nat.log 10 n.toNat + 1 ≤ fuel →
          ∃ s, itoaLoopFlat fuel (loopEntry buf0 n) = some s ∧ s.n = 0 ∧
            (digitWrites s).length = Nat.log 10 n.toNat + 1 ∧
            s.p = 5 - ((Nat.log 10 n.toNat + 1 : Nat) : Int)) ∧
        ∀ f, f ≤ Nat.log 10 n.toNat → itoaLoopFlat f (loopEntry buf0 n) = none) := by
  refine ⟨itoa_eq_loop buf0 n hb, fun fuel s h => itoaLoopFlat_of_done fuel _ s h, ?_, ?_,
    tdiv_ten_lt n, ?_⟩
  · rcases le_or_lt n 0 with hn | hn
    · exact ⟨_, itoaLoopFlat_nonpos _ _ hn, hn⟩
    · obtain ⟨m, rfl⟩ := Int.eq_ofNat_of_zero_le (by omega : 0 ≤ n)
      obtain ⟨b, hrun⟩ := itoaLoopFlat_exact m m 5 (buf0.set 5 0) [(5, 0)]
        (digits_length_le_self m)
      rw [Int.toNat_ofNat]
      exact ⟨_, hrun, le_refl _⟩
  · intro hn fuel
    exact ⟨itoaLoopFlat_nonpos fuel _ hn, rfl⟩
  · intro h1
    obtain ⟨m, rfl⟩ := Int.eq_ofNat_of_zero_le (by omega : 0 ≤ n)
    have hdl : (Nat.digits 10 m).length = Nat.log 10 m + 1 :=
      Nat.digits_len 10 m (by decide) (by omega)
    rw [Int.toNat_ofNat, ← hdl]
    constructor
    · intro fuel hf
      obtain ⟨b, hrun⟩ := itoaLoopFlat_exact m fuel 5 (buf0.set 5 0) [(5, 0)] hf
      refine ⟨_, hrun, rfl, ?_, rfl⟩
      simp only [digitWrites, List.cons_append, List.nil_append, List.tail_cons,
        digitStores_length]
    · intro f hf
      exact itoaLoopFlat_short m f 5 (buf0.set 5 0) [(5, 0)] (by omega)

theorem itoa_loop_terminates_witness :
    (([0, 0, 0, 0, 0, 0] : List Nat).length = 6 ∧ (1 : Int) ≤ 1000000) ∧
      (∃ s, itoaLoopFlat (1000000 : Int).toNat (loopEntry [0, 0, 0, 0, 0, 0] 1000000) = some s ∧
        s.n ≤ 0) ∧
      ((∀ fuel, Nat.log 10 (1000000 : Int).toNat + 1 ≤ fuel →
          ∃ s, itoaLoopFlat fuel (loopEntry [0, 0, 0, 0, 0, 0] 1000000) = some s ∧ s.n = 0 ∧
            (digitWrites s).length = Nat.log 10 (1000000 : Int).toNat + 1 ∧
            s.p = 5 - ((Nat.log 10 (1000000 : Int).toNat + 1 : Nat) : Int)) ∧
        ∀ f, f ≤ Nat.log 10 (1000000 : Int).toNat →
          itoaLoopFlat f (loopEntry [0, 0, 0, 0, 0, 0] 1000000) = none) :=
  ⟨⟨rfl, by decide⟩, (itoa_loop_terminates [0, 0, 0, 0, 0, 0] 1000000 rfl).2.2.1,
    (itoa_loop_terminates [0, 0, 0, 0, 0, 0] 1000000 rfl).2.2.2.2.2 (by decide)⟩

/-- C12: for every integer `n ≤ 0`, zero and every negative value, and every content of the
six-slot buffer, `itoa(n)` completes, returns the offset 5, makes exactly one store, the
terminator in slot 5, leaves the slots 0..4 as they were, and the string read through the
returned pointer is empty. -/
theorem itoa_nonpositive_empty (buf0 : List Nat) (n : Int) (hb : buf0.length = 6)
    (hn : n ≤ 0) :
    ∃ s, itoa buf0 n = Outcome.done s ∧ s.p = 5 ∧ s.writes = [(5, 0)] ∧
      s.buf = buf0.take 5 ++ [0] ∧
      cstr s.buf s.p = some [] ∧ itoaString buf0 n = some "" := by
  obtain ⟨a, b, c, d, e, f, rfl⟩ := length_six buf0 hb
  have h := itoa_nonpos [a, b, c, d, e, f] n rfl hn
  refine ⟨_, h, rfl, rfl, rfl, rfl, ?_⟩
  unfold itoaString
  rw [h]
  rfl

theorem itoa_nonpositive_empty_witness :
    (([49, 50, 51, 52, 53, 54] : List Nat).length = 6 ∧ (-32768 : Int) ≤ 0) ∧
    ∃ s, itoa [49, 50, 51, 52, 53, 54] (-32768) = Outcome.done s ∧ s.p = 5 ∧
      s.writes = [(5, 0)] ∧ s.buf = ([49, 50, 51, 52, 53, 54] : List Nat).take 5 ++ [0] ∧
      cstr s.buf s.p = some [] ∧ itoaString [49, 50, 51, 52, 53, 54] (-32768) = some "" :=
  ⟨⟨rfl, by decide⟩, itoa_nonpositive_empty [49, 50, 51, 52, 53, 54] (-32768) rfl (by decide)⟩

/-! ## Reading through a pointer kept across a second call -/

theorem cstr_view (F X rest : List Nat) (k : Nat) (hk : F.length = k)
    (hX : ∀ c ∈ X, c ≠ 0) : cstr (F ++ X ++ 0 :: rest) (k : Int) = some X := by
  unfold cstr
  rw [if_pos (by omega)]
  simp only [Int.toNat_ofNat, List.append_assoc]
  rw [List.drop_append_of_le_length (by omega), List.drop_eq_nil_of_le (by omega),
    List.nil_append]
  exact scanCStr_append_zero X rest hX

theorem retained_view_short (S B : List Nat) (la lb : Nat) (hS : S.length = 6)
    (hB : B.length = lb) (hle : la ≤ lb) (hlb : lb ≤ 5) (hnz : ∀ c ∈ B, c ≠ 0) :
    cstr (S.take (5 - lb) ++ B ++ [0]) ((5 - la : Nat) : Int) = some (B.drop (lb - la)) := by
  have hsplit : S.take (5 - lb) ++ B ++ [0]
      = (S.take (5 - lb) ++ B.take (lb - la)) ++ B.drop (lb - la) ++ 0 :: [] := by
    simp only [List.append_assoc]
    rw [← List.append_assoc (List.take (lb - la) B), List.take_append_drop]
  rw [hsplit]
  refine cstr_view _ _ _ _ ?_ (fun c hc => hnz c (List.mem_of_mem_drop hc))
  rw [List.length_append, List.length_take, List.length_take, hS, hB]
  omega

theorem retained_view_long (F A B : List Nat) (la lb : Nat) (hF : F.length = 5 - la)
    (hA : A.length = la) (hlt : lb < la) (hla : la ≤ 5)
    (hnzA : ∀ c ∈ A, c ≠ 0) (hnzB : ∀ c ∈ B, c ≠ 0) :
    cstr ((F ++ A ++ [0]).take (5 - lb) ++ B ++ [0]) ((5 - la : Nat) : Int)
      = some (A.take (la - lb) ++ B) := by
  have htake : (F ++ A ++ [0]).take (5 - lb) = F ++ A.take (la - lb) := by
    rw [List.append_assoc, List.take_append_eq_append_take, List.take_of_length_le (by omega),
      List.take_append_of_le_length (by omega), hF]
    congr 2
    omega
  rw [htake]
  have hsplit : F ++ A.take (la - lb) ++ B ++ [0] = F ++ (A.take (la - lb) ++ B) ++ 0 :: [] := by
    simp only [List.append_assoc]
  rw [hsplit]
  refine cstr_view _ _ _ _ hF ?_
  intro c hc
  rcases List.mem_append.mp hc with h | h
  · exact hnzA c (List.mem_of_mem_take h)
  · exact hnzB c h

theorem digitBytes_ne_zero (m : Nat) : ∀ c ∈ digitBytes m, c ≠ 0 := by
  intro c hc
  have := digitBytes_range m c hc
  omega

/-- C13: for all `a`, `b` in `1..65535` and every content of the six-slot buffer, call `itoa(a)`
and then `itoa(b)` on the buffer the first call left.  Both calls complete and return the
decimal digits `A` of `a` and `B` of `b`.  The pointer kept from the first call, read after the
second, gives the last `|A|` characters of `B` when `a` has no more digits than `b`, and the
first `|A| - |B|` characters of `A` followed by all of `B` when `a` has more digits.  The slots
in front of the second returned offset are unchanged by the second call.  The kept view need
not read the digits of `a`: after `itoa(640)` and `itoa(7)` it reads `"647"`. -/
theorem itoa_aliasing (buf0 : List Nat) (a b : Int) (hb : buf0.length = 6)
    (ha1 : 1 ≤ a) (ha2 : a ≤ 65535) (hb1 : 1 ≤ b) (hb2 : b ≤ 65535) :
    (∃ s1 s2 A B, itoa buf0 a = Outcome.done s1 ∧ itoa s1.buf b = Outcome.done s2 ∧
      A = digitBytes a.toNat ∧ B = digitBytes b.toNat ∧
      cstr s1.buf s1.p = some A ∧ cstr s2.buf s2.p = some B ∧
      cstr s2.buf s1.p =
        some (if A.length ≤ B.length then B.drop (B.length - A.length)
          else A.take (A.length - B.length) ++ B) ∧
      s2.buf.take s2.p.toNat = s1.buf.take s2.p.toNat) ∧
    (∃ t1 t2, itoa buf0 640 = Outcome.done t1 ∧ itoa t1.buf 7 = Outcome.done t2 ∧
      cstr t1.buf t1.p = some [54, 52, 48] ∧ cstr t2.buf t1.p = some [54, 52, 55]) := by
  constructor
  · obtain ⟨ma, rfl⟩ := Int.eq_ofNat_of_zero_le (by omega : 0 ≤ a)
    obtain ⟨mb, rfl⟩ := Int.eq_ofNat_of_zero_le (by omega : 0 ≤ b)
    have hma : ma ≤ 99999 := by omega
    have hmb : mb ≤ 99999 := by omega
    have hla := digits_length_le_five ma hma
    have hlb := digits_length_le_five mb hmb
    have hfl := front_length buf0 ma hb
    have hS : (buf0.take (5 - (Nat.digits 10 ma).length) ++ digitBytes ma ++ [0]).length = 6 := by
      simp only [List.length_append, hfl, digitBytes_length, List.length_singleton]
      omega
    have h1 := itoa_fits buf0 ma hb hma
    have h2 := itoa_fits _ mb hS hmb
    refine ⟨_, _, digitBytes ma, digitBytes mb, h1, h2, by simp, by simp,
      cstr_itoa_fits buf0 ma hla hb, cstr_itoa_fits _ mb hlb hS, ?_, ?_⟩
    · simp only [digitBytes_length]
      split
      · next hle =>
        exact retained_view_short _ _ _ _ hS (digitBytes_length mb) hle hlb
          (digitBytes_ne_zero mb)
      · next hgt =>
        exact retained_view_long _ _ _ _ _ hfl (digitBytes_length ma) (by omega) hla
          (digitBytes_ne_zero ma) (digitBytes_ne_zero mb)
    · simp only [Int.toNat_ofNat, List.append_assoc]
      rw [List.take_left']
      rw [List.length_take, List.length_append, hfl, List.length_append, digitBytes_length,
        List.length_singleton]
      omega
  · obtain ⟨c0, c1, c2, c3, c4, c5, rfl⟩ := length_six buf0 hb
    exact ⟨_, _, rfl, rfl, rfl, rfl⟩

theorem itoa_aliasing_witness :
    (([0, 0, 0, 0, 0, 0] : List Nat).length = 6 ∧ (1 : Int) ≤ 65535 ∧ (65535 : Int) ≤ 65535 ∧
      (1 : Int) ≤ 42 ∧ (42 : Int) ≤ 65535) ∧
    ((∃ s1 s2 A B, itoa [0, 0, 0, 0, 0, 0] 65535 = Outcome.done s1 ∧
      itoa s1.buf 42 = Outcome.done s2 ∧
      A = digitBytes (65535 : Int).toNat ∧ B = digitBytes (42 : Int).toNat ∧
      cstr s1.buf s1.p = some A ∧ cstr s2.buf s2.p = some B ∧
      cstr s2.buf s1.p =
        some (if A.length ≤ B.length then B.drop (B.length - A.length)
          else A.take (A.length - B.length) ++ B) ∧
      s2.buf.take s2.p.toNat = s1.buf.take s2.p.toNat) ∧
    (∃ t1 t2, itoa [0, 0, 0, 0, 0, 0] 640 = Outcome.done t1 ∧
      itoa t1.buf 7 = Outcome.done t2 ∧
      cstr t1.buf t1.p = some [54, 52, 48] ∧ cstr t2.buf t1.p = some [54, 52, 55])) :=
  ⟨⟨rfl, by decide, by decide, by decide, by decide⟩,
    itoa_aliasing [0, 0, 0, 0, 0, 0] 65535 42 rfl (by decide) (by decide) (by decide)
      (by decide)⟩

end SysSoft
